import Mathlib

/-!
Verification of the CalcLang lexical scanner (`src/scanner.rs`).

The scanner makes a single left-to-right pass over the input characters.
We embed the Rust code shallowly: the peekable character iterator becomes an
explicit `List Char` of not-yet-consumed characters, the `while let` loop
becomes recursion, and the `i64` accumulator becomes an `Int` with explicit
two's-complement wrapping at width 64 (release-mode Rust semantics for the
unchecked `*=` / `+=` in the digit loop).
-/

namespace CalcLang

/-- The token type of `scanner.rs` (`enum Token`). -/
inductive Token where
  | Integer (value : Int)
  | Addition
  | Subtraction
  | Multiplication
  | Division
  | Modulus
  | Exponent
  | Assignment
  | Terminator
  | Quit
  | Variable (c : Char)
  | Unknown (c : Char)
deriving DecidableEq, Repr

/-- The lifecycle marker of `scanner.rs` (`enum ScannerState`). -/
inductive ScannerState where
  | Idle
  | CharMode
  | IntMode
  | QuitMode
  | Done
deriving DecidableEq, Repr

/-- The scanner struct of `scanner.rs` (`struct Scanner`). -/
structure Scanner where
  input : String
  output : List Token
  state : ScannerState
deriving DecidableEq, Repr

/-- Two's-complement wrapping at 64 bits: the value an `i64` holds after an
unchecked arithmetic result `n`. -/
def wrap64 (n : Int) : Int := (n + 2 ^ 63) % 2 ^ 64 - 2 ^ 63

/-- `i64` addition (wrapping). -/
def i64Add (a b : Int) : Int := wrap64 (a + b)

/-- `i64` multiplication (wrapping). -/
def i64Mul (a b : Int) : Int := wrap64 (a * b)

/-- `((current as u8) - ('0' as u8)) as i64` for a digit character. -/
def digitVal (c : Char) : Int := Int.ofNat (c.toNat - Char.toNat '0')

/-- One turn of the digit-accumulation loop body:
`number *= 10; number += digit(current)` on `i64`. -/
def intStep (number : Int) (current : Char) : Int :=
  i64Add (i64Mul number 10) (digitVal current)

/-- The whitespace arm `' ' | '\r' | '\n' | '\t'`. -/
def isWs (c : Char) : Prop := c = ' ' ∨ c = '\r' ∨ c = '\n' ∨ c = '\t'

instance (c : Char) : Decidable (isWs c) :=
  inferInstanceAs (Decidable (c = ' ' ∨ c = '\r' ∨ c = '\n' ∨ c = '\t'))

/-- The range pattern `'a'...'z'`. -/
def isLowerAZ (c : Char) : Prop := 'a' ≤ c ∧ c ≤ 'z'

instance (c : Char) : Decidable (isLowerAZ c) :=
  inferInstanceAs (Decidable ('a' ≤ c ∧ c ≤ 'z'))

/-- The range pattern `'0'...'9'` (also the peek guard in the digit loop). -/
def isDigit09 (c : Char) : Prop := '0' ≤ c ∧ c ≤ '9'

instance (c : Char) : Decidable (isDigit09 c) :=
  inferInstanceAs (Decidable ('0' ≤ c ∧ c ≤ '9'))

/-- The digit-accumulation loop of the `'0'...'9'` arm.  `number` is the
running value, `current` the digit just consumed, `rest` the unconsumed
characters.  First fold `current` into `number`; then peek: if the next
character is a digit, consume it and loop, otherwise stop.  Returns the final
value and the unconsumed remainder. -/
def scanInt (number : Int) (current : Char) (rest : List Char) : Int × List Char :=
  let n := intStep number current
  match rest with
  | next :: rest' =>
    if isDigit09 next then scanInt n next rest'
    else (n, next :: rest')
  | [] => (n, [])

/-- The `'q'` arm: after consuming `q`, peek for `u`; on match consume it and
peek for `i`; on match consume it and peek for `t`; on match consume it and
yield `Quit`.  On the first failed peek yield `Variable('q')`; the peeked
character stays, but characters consumed on earlier successful peeks are gone.
Returns the token and the unconsumed remainder. -/
def scanQuit (rest : List Char) : Token × List Char :=
  match rest with
  | next1 :: rest1 =>
    if next1 = 'u' then
      match rest1 with
      | next2 :: rest2 =>
        if next2 = 'i' then
          match rest2 with
          | next3 :: rest3 =>
            if next3 = 't' then (Token.Quit, rest3)
            else (Token.Variable 'q', next3 :: rest3)
          | [] => (Token.Variable 'q', [])
        else (Token.Variable 'q', next2 :: rest2)
      | [] => (Token.Variable 'q', [])
    else (Token.Variable 'q', next1 :: rest1)
  | [] => (Token.Variable 'q', [])

/-- One iteration of the scan loop: `c` is the character just consumed by
`chars.next()`, `rest` the unconsumed characters.  The match arms appear in
source order: the eight single-character operators, whitespace, `'q'`,
`'a'...'z'`, `'0'...'9'`, and the catch-all.  Returns the `Option<Token>` the
match produced and the unconsumed remainder. -/
def scanStep (c : Char) (rest : List Char) : Option Token × List Char :=
  if c = '+' then (some Token.Addition, rest)
  else if c = '-' then (some Token.Subtraction, rest)
  else if c = '*' then (some Token.Multiplication, rest)
  else if c = '/' then (some Token.Division, rest)
  else if c = '%' then (some Token.Modulus, rest)
  else if c = '^' then (some Token.Exponent, rest)
  else if c = '=' then (some Token.Assignment, rest)
  else if c = ';' then (some Token.Terminator, rest)
  else if isWs c then (none, rest)
  else if c = 'q' then (some (scanQuit rest).1, (scanQuit rest).2)
  else if isLowerAZ c then (some (Token.Variable c), rest)
  else if isDigit09 c then
    (some (Token.Integer (scanInt 0 c rest).1), (scanInt 0 c rest).2)
  else (some (Token.Unknown c), rest)

/-- The `while let Some(c) = chars.next()` loop, with fuel.  Each iteration
consumes at least the head character, so `l.length` fuel always suffices
(`scanGo_fuel` below); the fuel only makes the recursion structural. -/
def scanGo : Nat → List Char → List Token
  | 0, _ => []
  | _ + 1, [] => []
  | fuel + 1, c :: rest =>
    match scanStep c rest with
    | (some tok, rest') => tok :: scanGo fuel rest'
    | (none, rest') => scanGo fuel rest'

/-- The token sequence `Scanner::scan` appends for a character stream. -/
def scanTokens (l : List Char) : List Token := scanGo l.length l

/-- `Scanner::new`. -/
def Scanner.new (input : String) : Scanner :=
  { input := input, output := [], state := ScannerState.Idle }

/-- `Scanner::scan`: sets `state` to `CharMode`, then pushes the tokens of the
input onto `output`.  No other assignment to `state` occurs in the source. -/
def Scanner.scan (s : Scanner) : Scanner :=
  { s with
    state := ScannerState.CharMode,
    output := s.output ++ scanTokens s.input.toList }

/-- Tokens produced by a fresh scanner on `input`: `new`, `scan`, `output()`. -/
def scanString (input : String) : List Token := ((Scanner.new input).scan).output

/-- The classes of characters that some non-catch-all match arm recognizes. -/
def isRecognized (c : Char) : Prop :=
  c = '+' ∨ c = '-' ∨ c = '*' ∨ c = '/' ∨ c = '%' ∨ c = '^' ∨ c = '=' ∨ c = ';' ∨
    isWs c ∨ c = 'q' ∨ isLowerAZ c ∨ isDigit09 c

instance (c : Char) : Decidable (isRecognized c) :=
  inferInstanceAs (Decidable (c = '+' ∨ c = '-' ∨ c = '*' ∨ c = '/' ∨ c = '%' ∨ c = '^' ∨ c = '=' ∨ c = ';' ∨
    isWs c ∨ c = 'q' ∨ isLowerAZ c ∨ isDigit09 c))

/-- The running value of the digit loop after folding a list of digits into 0. -/
def digitsVal (ds : List Char) : Int := List.foldl intStep 0 ds

/-- Mathematical (unbounded) value of a digit run, for comparison with the
wrapping accumulation the code performs. -/
def exactVal (ds : List Char) : Int :=
  List.foldl (fun n c => n * 10 + digitVal c) 0 ds

/-! ### Remainder lemmas: every loop iteration only drops consumed characters -/

theorem scanQuit_suffix (rest : List Char) : (scanQuit rest).2 <:+ rest := by
  rcases rest with _ | ⟨n1, rest1⟩
  · exact List.suffix_rfl
  by_cases h1 : n1 = 'u'
  · subst h1
    rcases rest1 with _ | ⟨n2, rest2⟩
    · simp [scanQuit]
    by_cases h2 : n2 = 'i'
    · subst h2
      rcases rest2 with _ | ⟨n3, rest3⟩
      · simp [scanQuit]
      by_cases h3 : n3 = 't'
      · subst h3
        simp only [scanQuit, if_pos rfl]
        exact ⟨['u', 'i', 't'], rfl⟩
      · simp only [scanQuit, if_pos rfl, if_neg h3]
        exact ⟨['u', 'i'], rfl⟩
    · simp only [scanQuit, if_pos rfl, if_neg h2]
      exact ⟨['u'], rfl⟩
  · simp only [scanQuit, if_neg h1]
    exact List.suffix_rfl

theorem scanInt_suffix (rest : List Char) :
    ∀ (n : Int) (c : Char), (scanInt n c rest).2 <:+ rest := by
  induction rest with
  | nil => intro n c; simp [scanInt]
  | cons next rest' ih =>
    intro n c
    simp only [scanInt]
    split_ifs with h
    · exact (ih (intStep n c) next).trans (List.suffix_cons next rest')
    · exact List.suffix_rfl

theorem scanStep_suffix (c : Char) (rest : List Char) : (scanStep c rest).2 <:+ rest := by
  unfold scanStep
  by_cases h1 : c = '+'
  · rw [if_pos h1]
  rw [if_neg h1]
  by_cases h2 : c = '-'
  · rw [if_pos h2]
  rw [if_neg h2]
  by_cases h3 : c = '*'
  · rw [if_pos h3]
  rw [if_neg h3]
  by_cases h4 : c = '/'
  · rw [if_pos h4]
  rw [if_neg h4]
  by_cases h5 : c = '%'
  · rw [if_pos h5]
  rw [if_neg h5]
  by_cases h6 : c = '^'
  · rw [if_pos h6]
  rw [if_neg h6]
  by_cases h7 : c = '='
  · rw [if_pos h7]
  rw [if_neg h7]
  by_cases h8 : c = ';'
  · rw [if_pos h8]
  rw [if_neg h8]
  by_cases h9 : isWs c
  · rw [if_pos h9]
  rw [if_neg h9]
  by_cases h10 : c = 'q'
  · rw [if_pos h10]
    exact scanQuit_suffix rest
  rw [if_neg h10]
  by_cases h11 : isLowerAZ c
  · rw [if_pos h11]
  rw [if_neg h11]
  by_cases h12 : isDigit09 c
  · rw [if_pos h12]
    exact scanInt_suffix rest 0 c
  rw [if_neg h12]

/-! ### The fuel in `scanGo` is irrelevant once it covers the input length -/

theorem scanGo_nil (f : Nat) : scanGo f [] = [] := by cases f <;> rfl

theorem scanGo_cons_some (f : Nat) (c : Char) (rest : List Char) (tok : Token)
    (rest' : List Char) (h : scanStep c rest = (some tok, rest')) :
    scanGo (f + 1) (c :: rest) = tok :: scanGo f rest' := by
  simp only [scanGo, h]

theorem scanGo_cons_none (f : Nat) (c : Char) (rest : List Char)
    (rest' : List Char) (h : scanStep c rest = (none, rest')) :
    scanGo (f + 1) (c :: rest) = scanGo f rest' := by
  simp only [scanGo, h]

theorem scanGo_fuel : ∀ (f g : Nat) (l : List Char), l.length ≤ f → l.length ≤ g →
    scanGo f l = scanGo g l := by
  intro f
  induction f with
  | zero =>
    intro g l hf _
    have hl : l = [] := List.length_eq_zero.mp (Nat.le_zero.mp hf)
    subst hl
    rw [scanGo_nil, scanGo_nil]
  | succ f ih =>
    intro g l hf hg
    rcases l with _ | ⟨c, rest⟩
    · rw [scanGo_nil, scanGo_nil]
    rcases g with _ | g
    · exact absurd hg (by simp)
    have hf' : rest.length ≤ f := by simpa using hf
    have hg' : rest.length ≤ g := by simpa using hg
    rcases hs : scanStep c rest with ⟨tok?, rest'⟩
    have hr : rest'.length ≤ rest.length := by
      have h2 := (scanStep_suffix c rest).length_le
      rw [hs] at h2
      exact h2
    rcases tok? with _ | tok
    · rw [scanGo_cons_none f c rest rest' hs, scanGo_cons_none g c rest rest' hs]
      exact ih g rest' (le_trans hr hf') (le_trans hr hg')
    · rw [scanGo_cons_some f c rest tok rest' hs, scanGo_cons_some g c rest tok rest' hs,
        ih g rest' (le_trans hr hf') (le_trans hr hg')]

theorem scanTokens_nil : scanTokens [] = [] := rfl

theorem scanTokens_cons_some {c : Char} {rest : List Char} {tok : Token}
    {rest' : List Char} (h : scanStep c rest = (some tok, rest')) :
    scanTokens (c :: rest) = tok :: scanTokens rest' := by
  have hr : rest'.length ≤ rest.length := by
    have h2 := (scanStep_suffix c rest).length_le
    rw [h] at h2
    exact h2
  unfold scanTokens
  rw [List.length_cons, scanGo_cons_some rest.length c rest tok rest' h]
  rw [scanGo_fuel rest.length rest'.length rest' hr le_rfl]

theorem scanTokens_cons_none {c : Char} {rest : List Char}
    {rest' : List Char} (h : scanStep c rest = (none, rest')) :
    scanTokens (c :: rest) = scanTokens rest' := by
  have hr : rest'.length ≤ rest.length := by
    have h2 := (scanStep_suffix c rest).length_le
    rw [h] at h2
    exact h2
  unfold scanTokens
  rw [List.length_cons, scanGo_cons_none rest.length c rest rest' h]
  rw [scanGo_fuel rest.length rest'.length rest' hr le_rfl]

/-! ### Which arm fires for a given class of character -/

theorem scanStep_digit {c : Char} (hd : isDigit09 c) (rest : List Char) :
    scanStep c rest =
      (some (Token.Integer (scanInt 0 c rest).1), (scanInt 0 c rest).2) := by
  obtain ⟨hlo, hhi⟩ := hd
  unfold scanStep
  rw [if_neg, if_neg, if_neg, if_neg, if_neg, if_neg, if_neg, if_neg, if_neg, if_neg,
    if_neg, if_pos ⟨hlo, hhi⟩]
  · rintro ⟨ha, _⟩
    exact absurd (le_trans ha hhi) (by decide)
  · rintro rfl
    exact absurd hhi (by decide)
  · rintro (rfl | rfl | rfl | rfl) <;> exact absurd hlo (by decide)
  · rintro rfl
    exact absurd hhi (by decide)
  · rintro rfl
    exact absurd hhi (by decide)
  · rintro rfl
    exact absurd hhi (by decide)
  · rintro rfl
    exact absurd hlo (by decide)
  · rintro rfl
    exact absurd hlo (by decide)
  · rintro rfl
    exact absurd hlo (by decide)
  · rintro rfl
    exact absurd hlo (by decide)
  · rintro rfl
    exact absurd hlo (by decide)

theorem scanStep_unknown {c : Char} (h : ¬ isRecognized c) (rest : List Char) :
    scanStep c rest = (some (Token.Unknown c), rest) := by
  simp only [isRecognized, not_or] at h
  obtain ⟨n1, n2, n3, n4, n5, n6, n7, n8, n9, n10, n11, n12⟩ := h
  unfold scanStep
  rw [if_neg n1, if_neg n2, if_neg n3, if_neg n4, if_neg n5, if_neg n6, if_neg n7,
    if_neg n8, if_neg n9, if_neg n10, if_neg n11, if_neg n12]

/-! ### The digit loop consumes exactly the maximal digit run -/

theorem scanInt_append (ds : List Char) :
    ∀ (rest : List Char) (n : Int) (cur : Char),
      (∀ c ∈ ds, isDigit09 c) → (∀ c ∈ rest.head?, ¬ isDigit09 c) →
      scanInt n cur (ds ++ rest) = (List.foldl intStep n (cur :: ds), rest) := by
  induction ds with
  | nil =>
    intro rest n cur _ hrest
    rcases rest with _ | ⟨next, rest'⟩
    · simp [scanInt]
    · have hnd : ¬ isDigit09 next := hrest next (by simp)
      simp [scanInt, hnd]
  | cons d ds ih =>
    intro rest n cur hds hrest
    have hd : isDigit09 d := hds d (by simp)
    simp only [List.cons_append, scanInt, if_pos hd]
    rw [List.append_eq, ih rest (intStep n cur) d (fun c hc => hds c (by simp [hc])) hrest]
    simp

/-! ### Wrapping accumulation follows the unbounded value modulo 2^64 -/

theorem intStep_wrap (x : Int) (c : Char) :
    intStep (wrap64 x) c = wrap64 (x * 10 + digitVal c) := by
  unfold intStep i64Add i64Mul wrap64
  omega

theorem foldl_intStep_wrap (ds : List Char) : ∀ x : Int,
    List.foldl intStep (wrap64 x) ds =
      wrap64 (List.foldl (fun n c => n * 10 + digitVal c) x ds) := by
  induction ds with
  | nil => intro x; rfl
  | cons d ds ih =>
    intro x
    rw [List.foldl_cons, List.foldl_cons, intStep_wrap]
    exact ih (x * 10 + digitVal d)

/-! ### A Quit token can only come from the literal characters q u i t -/

theorem scanQuit_quit_inv {rest : List Char} (h : (scanQuit rest).1 = Token.Quit) :
    ∃ r3, rest = 'u' :: 'i' :: 't' :: r3 := by
  rcases rest with _ | ⟨n1, rest1⟩
  · simp [scanQuit] at h
  by_cases h1 : n1 = 'u'
  · subst h1
    rcases rest1 with _ | ⟨n2, rest2⟩
    · simp [scanQuit] at h
    by_cases h2 : n2 = 'i'
    · subst h2
      rcases rest2 with _ | ⟨n3, rest3⟩
      · simp [scanQuit] at h
      by_cases h3 : n3 = 't'
      · subst h3
        exact ⟨rest3, rfl⟩
      · simp [scanQuit, h3] at h
    · simp [scanQuit, h2] at h
  · simp [scanQuit, h1] at h

theorem scanStep_quit_inv {c : Char} {rest rest' : List Char}
    (h : scanStep c rest = (some Token.Quit, rest')) :
    c = 'q' ∧ ∃ r3, rest = 'u' :: 'i' :: 't' :: r3 := by
  unfold scanStep at h
  by_cases h1 : c = '+'
  · rw [if_pos h1] at h
    simp at h
  rw [if_neg h1] at h
  by_cases h2 : c = '-'
  · rw [if_pos h2] at h
    simp at h
  rw [if_neg h2] at h
  by_cases h3 : c = '*'
  · rw [if_pos h3] at h
    simp at h
  rw [if_neg h3] at h
  by_cases h4 : c = '/'
  · rw [if_pos h4] at h
    simp at h
  rw [if_neg h4] at h
  by_cases h5 : c = '%'
  · rw [if_pos h5] at h
    simp at h
  rw [if_neg h5] at h
  by_cases h6 : c = '^'
  · rw [if_pos h6] at h
    simp at h
  rw [if_neg h6] at h
  by_cases h7 : c = '='
  · rw [if_pos h7] at h
    simp at h
  rw [if_neg h7] at h
  by_cases h8 : c = ';'
  · rw [if_pos h8] at h
    simp at h
  rw [if_neg h8] at h
  by_cases h9 : isWs c
  · rw [if_pos h9] at h
    simp at h
  rw [if_neg h9] at h
  by_cases h10 : c = 'q'
  · rw [if_pos h10] at h
    rw [Prod.mk.injEq, Option.some.injEq] at h
    exact ⟨h10, scanQuit_quit_inv h.1⟩
  rw [if_neg h10] at h
  by_cases h11 : isLowerAZ c
  · rw [if_pos h11] at h
    simp at h
  rw [if_neg h11] at h
  by_cases h12 : isDigit09 c
  · rw [if_pos h12] at h
    simp at h
  rw [if_neg h12] at h
  simp at h

/-! ### Token count is bounded by character count -/

theorem scanGo_length : ∀ (f : Nat) (l : List Char), (scanGo f l).length ≤ l.length := by
  intro f
  induction f with
  | zero => intro l; simp [scanGo]
  | succ f ih =>
    intro l
    rcases l with _ | ⟨c, rest⟩
    · simp [scanGo]
    rcases hs : scanStep c rest with ⟨tok?, rest'⟩
    have hr : rest'.length ≤ rest.length := by
      have h2 := (scanStep_suffix c rest).length_le
      rw [hs] at h2
      exact h2
    rcases tok? with _ | tok
    · rw [scanGo_cons_none f c rest rest' hs]
      exact le_trans (ih rest') (le_trans hr (Nat.le_succ _))
    · rw [scanGo_cons_some f c rest tok rest' hs]
      simpa using Nat.succ_le_succ (le_trans (ih rest') hr)

/-! ### Quit in the output forces the substring quit in the input -/

theorem quit_run_of_mem_scanGo : ∀ (f : Nat) (l : List Char),
    Token.Quit ∈ scanGo f l →
    ∃ pre post, l = pre ++ 'q' :: 'u' :: 'i' :: 't' :: post := by
  intro f
  induction f with
  | zero => intro l h; simp [scanGo] at h
  | succ f ih =>
    intro l h
    rcases l with _ | ⟨c, rest⟩
    · simp [scanGo] at h
    rcases hs : scanStep c rest with ⟨tok?, rest'⟩
    have hsuf : rest' <:+ rest := by
      have h2 := scanStep_suffix c rest
      rw [hs] at h2
      exact h2
    obtain ⟨t, ht⟩ := hsuf
    rcases tok? with _ | tok
    · rw [scanGo_cons_none f c rest rest' hs] at h
      obtain ⟨pre, post, hpp⟩ := ih rest' h
      subst ht
      subst hpp
      exact ⟨c :: t ++ pre, post, by simp⟩
    · rw [scanGo_cons_some f c rest tok rest' hs] at h
      rcases List.mem_cons.mp h with heq | hmem
      · have hs' : scanStep c rest = (some Token.Quit, rest') := by
          rw [hs, ← heq]
        obtain ⟨hc, r3, hr⟩ := scanStep_quit_inv hs'
        exact ⟨[], r3, by simp [hc, hr]⟩
      · obtain ⟨pre, post, hpp⟩ := ih rest' hmem
        subst ht
        subst hpp
        exact ⟨c :: t ++ pre, post, by simp⟩

/-! ## Claims -/

set_option maxRecDepth 8000

/-- Claim C1, as stated, is false: the spec asserts that after a failed
keyword match only the already-consumed `q` is lost to the token and every
merely-peeked character survives, so `"qu"` should scan to
`[Variable 'q', Variable 'u']`.  The code consumes `u` with `chars.next()`
before peeking for `i`, so on input `"qu"` the `u` is swallowed. -/
theorem claim1_keyword_backoff_counterexample :
    scanString "qu" ≠ [Token.Variable 'q', Token.Variable 'u'] := by decide

/-- Claim C1, amended: on a failed keyword match the scanner emits
`Variable 'q'` and the character whose peek failed stays in the stream, but
the characters consumed on earlier successful peeks (`u`, then `i`) are
discarded; in particular `"qu"` scans to `[Variable 'q']` alone. -/
theorem claim1_keyword_backoff :
    scanString "qu" = [Token.Variable 'q'] ∧
    (∀ rest : List Char, rest.head? ≠ some 'u' →
      scanTokens ('q' :: rest) = Token.Variable 'q' :: scanTokens rest) ∧
    (∀ rest : List Char, rest.head? ≠ some 'i' →
      scanTokens ('q' :: 'u' :: rest) = Token.Variable 'q' :: scanTokens rest) ∧
    (∀ rest : List Char, rest.head? ≠ some 't' →
      scanTokens ('q' :: 'u' :: 'i' :: rest) = Token.Variable 'q' :: scanTokens rest) := by
  refine ⟨by decide, ?_, ?_, ?_⟩
  · intro rest h
    rcases rest with _ | ⟨n, r⟩
    · exact scanTokens_cons_some (by simp [scanStep, scanQuit, isWs])
    · have hn : n ≠ 'u' := by simpa using h
      exact scanTokens_cons_some (by simp [scanStep, scanQuit, isWs, hn])
  · intro rest h
    rcases rest with _ | ⟨n, r⟩
    · exact scanTokens_cons_some (by simp [scanStep, scanQuit, isWs])
    · have hn : n ≠ 'i' := by simpa using h
      exact scanTokens_cons_some (by simp [scanStep, scanQuit, isWs, hn])
  · intro rest h
    rcases rest with _ | ⟨n, r⟩
    · exact scanTokens_cons_some (by simp [scanStep, scanQuit, isWs])
    · have hn : n ≠ 't' := by simpa using h
      exact scanTokens_cons_some (by simp [scanStep, scanQuit, isWs, hn])

/-- Witness for the amended C1 at a concrete input. -/
theorem claim1_keyword_backoff_witness :
    scanTokens ['q', 'a'] = Token.Variable 'q' :: scanTokens ['a'] :=
  claim1_keyword_backoff.2.1 ['a'] (by decide)

/-- Claim C2: longest-match keyword recognition.  When `q` is followed by
`u`, `i`, `t`, exactly those four characters are consumed and one `Quit`
token is emitted; `"quit"` scans to `[Quit]` and `"quits"` to
`[Quit, Variable 's']`. -/
theorem claim2_longest_match :
    (∀ rest : List Char,
      scanTokens ('q' :: 'u' :: 'i' :: 't' :: rest) = Token.Quit :: scanTokens rest) ∧
    scanString "quit" = [Token.Quit] ∧
    scanString "quits" = [Token.Quit, Token.Variable 's'] := by
  refine ⟨?_, by decide, by decide⟩
  intro rest
  exact scanTokens_cons_some (by simp [scanStep, scanQuit, isWs])

/-- Claim C3: a digit starts digit-accumulation mode, which greedily consumes
the maximal contiguous digit run, folding `value = value*10 + digit`, and
emits one `Integer` with the final value; `"123"` scans to `[Integer 123]`
and `"3+3"` to `[Integer 3, Addition, Integer 3]`. -/
theorem claim3_digit_accumulation :
    (∀ ds rest : List Char, ds ≠ [] → (∀ c ∈ ds, isDigit09 c) →
      (∀ c ∈ rest.head?, ¬ isDigit09 c) →
      scanTokens (ds ++ rest) = Token.Integer (digitsVal ds) :: scanTokens rest) ∧
    scanString "123" = [Token.Integer 123] ∧
    scanString "3+3" = [Token.Integer 3, Token.Addition, Token.Integer 3] := by
  refine ⟨?_, by decide, by decide⟩
  intro ds rest hne hds hrest
  rcases ds with _ | ⟨c, ds'⟩
  · exact absurd rfl hne
  have hc : isDigit09 c := hds c (by simp)
  have hstep := scanStep_digit hc (ds' ++ rest)
  rw [scanInt_append ds' rest 0 c (fun x hx => hds x (by simp [hx])) hrest] at hstep
  have hstep2 : scanStep c (ds' ++ rest)
      = (some (Token.Integer (digitsVal (c :: ds'))), rest) := by
    rw [hstep]
    simp [digitsVal]
  rw [List.cons_append]
  exact scanTokens_cons_some hstep2

/-- Witness for C3 at a concrete input. -/
theorem claim3_digit_accumulation_witness :
    scanTokens (['1'] ++ []) = Token.Integer (digitsVal ['1']) :: scanTokens [] :=
  claim3_digit_accumulation.1 ['1'] [] (by simp) (by decide) (by simp)

/-- Claim C4: for every input string the number of emitted tokens is at most
the number of input characters. -/
theorem claim4_output_le_input (input : String) :
    (scanString input).length ≤ input.length :=
  scanGo_length input.toList.length input.toList

/-- Claim C5, as stated, is false: `scan` never assigns `Done`.  The only
assignment to the lifecycle marker in `scan` is `CharMode` at its start, so
after `scan` returns the state is `CharMode`, not `Done`. -/
theorem claim5_done_counterexample :
    ((Scanner.new "x").scan).state ≠ ScannerState.Done := by decide

/-- Claim C5, amended: `scan` moves the marker from `Idle` to `CharMode` at
its start and never assigns it again, so after `scan` returns the state is
`CharMode` for every scanner, never `Done`. -/
theorem claim5_state_after_scan (s : Scanner) :
    (s.scan).state = ScannerState.CharMode ∧ (s.scan).state ≠ ScannerState.Done :=
  ⟨rfl, fun h => ScannerState.noConfusion h⟩

/-- Claim C6, as stated, is false: `scan` also mutates the `state` field, not
only the output sequence — on a fresh scanner the state changes from `Idle`
to `CharMode`. -/
theorem claim6_frame_counterexample :
    ((Scanner.new "").scan).state ≠ (Scanner.new "").state := by decide

/-- Claim C6, amended: `scan` leaves the stored input text unchanged and
touches nothing outside the scanner (it is a pure function of the scanner);
besides appending to the output sequence its only other mutation is setting
the lifecycle marker to `CharMode`. -/
theorem claim6_frame (s : Scanner) :
    s.scan = { input := s.input,
               output := s.output ++ scanTokens s.input.toList,
               state := ScannerState.CharMode } := rfl

/-- Claim C7: digit accumulation is unchecked `i64` arithmetic: the folded
value always equals the mathematical value wrapped modulo 2^64 into
two's-complement range, and a run denoting 2^63 scans, without any error or
distinguishable overflow outcome, to the wrapped value -2^63. -/
theorem claim7_overflow_wraps :
    (∀ ds : List Char, digitsVal ds = wrap64 (exactVal ds)) ∧
    exactVal (String.toList "9223372036854775808") = 9223372036854775808 ∧
    scanString "9223372036854775808" = [Token.Integer (-9223372036854775808)] := by
  refine ⟨?_, by decide, by decide⟩
  intro ds
  have h := foldl_intStep_wrap ds 0
  rw [show wrap64 0 = 0 from by decide] at h
  exact h

/-- Claim C8: the scan is total — every character no arm recognizes is
consumed and emitted verbatim as `Unknown`, and scanning continues; `"#"`
scans to `[Unknown '#']`.  (Totality itself is inherent: `scanTokens` is a
total function.) -/
theorem claim8_total_unknown :
    (∀ (c : Char) (rest : List Char), ¬ isRecognized c →
      scanTokens (c :: rest) = Token.Unknown c :: scanTokens rest) ∧
    scanString "#" = [Token.Unknown '#'] := by
  refine ⟨?_, by decide⟩
  intro c rest h
  exact scanTokens_cons_some (scanStep_unknown h rest)

/-- Witness for C8 at a concrete input. -/
theorem claim8_total_unknown_witness :
    scanTokens ['#'] = Token.Unknown '#' :: scanTokens [] :=
  claim8_total_unknown.1 '#' [] (by decide)

/-- Claim C9, as stated, is false: a second `scan` on the same scanner is
neither prevented nor a no-op — it appends the whole token sequence again,
duplicating it. -/
theorem claim9_rescan_counterexample :
    ((Scanner.new "a").scan.scan).output ≠ ((Scanner.new "a").scan).output := by decide

/-- Claim C9, amended: re-invoking `scan` appends a second copy of the
input's token sequence to the already-populated output, so the two-call
output equals the one-call output only when the input produces no tokens. -/
theorem claim9_rescan_appends (s : Scanner) :
    (s.scan.scan).output = (s.scan).output ++ scanTokens s.input.toList := rfl

/-- Claim C10: a `Quit` token appears in the output only if the four
characters `q`, `u`, `i`, `t` occur consecutively in the input. -/
theorem claim10_quit_needs_quit (l : List Char) (h : Token.Quit ∈ scanTokens l) :
    ∃ pre post, l = pre ++ 'q' :: 'u' :: 'i' :: 't' :: post :=
  quit_run_of_mem_scanGo l.length l h

/-- Witness for C10 at a concrete input. -/
theorem claim10_quit_needs_quit_witness :
    ∃ pre post, ['q', 'u', 'i', 't'] = pre ++ 'q' :: 'u' :: 'i' :: 't' :: post :=
  claim10_quit_needs_quit ['q', 'u', 'i', 't'] (by decide)

end CalcLang
